import Mathlib

/-!
Shallow embedding of the n-dimensional connect-four engine from
`src/main.rs` and `src/err.rs`.

The board (`ndarray::ArrayD<Option<Color>>`) is modelled as a row-major
flat list of cells together with the shape vector `dims`.  Mutation is
modelled by explicit state passing; the `panic!` of `check_input` and of
out-of-range `ndarray` slicing is modelled by returning `none`.
-/

/-- Player colors, from `enum Color` in src/main.rs. -/
inductive Color
  | Red
  | Yellow
  deriving DecidableEq, Repr

/-- Error enumeration as declared in src/err.rs: `BoardFull`, `ColumnFull`,
`TooFewDimensions`.  (src/main.rs writes `GameError::AxisFull` for the
middle case, a variant that does not exist in src/err.rs.) -/
inductive GameError
  | BoardFull
  | ColumnFull
  | TooFewDimensions
  deriving DecidableEq, Repr

/-- The game state from src/main.rs: the `ArrayD` board split into its
row-major flat cell buffer and its shape, the cached direction set, and the
round counter. -/
structure GameState where
  cells : List (Option Color)
  dims : List Nat
  check_vecs : List (List Int)
  round : Nat
  deriving DecidableEq, Repr

/-- Componentwise negation of a direction vector (`-direction`). -/
def negVec (v : List Int) : List Int := v.map (fun x => -x)

/-- The all-zero vector of length `n` (`Array::from_elem(n_dims, 0)`). -/
def zeroVec (n : Nat) : List Int := List.replicate n 0

/-- All length-`n` vectors over `POSITION_CHANGES = [1, 0, -1]`, in the
order produced by `multi_cartesian_product` (first coordinate outermost). -/
def tuples : Nat → List (List Int)
  | 0 => [[]]
  | n + 1 =>
      ((tuples n).map (fun v => 1 :: v)) ++
      ((tuples n).map (fun v => 0 :: v)) ++
      ((tuples n).map (fun v => (-1) :: v))

/-- One step of the direction-set fold: insert `v` unless its negation is
already present (`if !directions.contains(&-&vec) { directions.insert(vec) }`). -/
def dirStep (acc : List (List Int)) (v : List Int) : List (List Int) :=
  if negVec v ∈ acc then acc else acc ++ [v]

/-- Removal of one vector from the collected set (`directions.remove(..)`). -/
def removeVec (z : List Int) : List (List Int) → List (List Int)
  | [] => []
  | v :: rest => if v = z then rest else v :: removeVec z rest

/-- `GameState::generate_check_vecs`: enumerate `{1,0,-1}^n`, keep each
vector whose negation was not kept earlier, then remove the zero vector. -/
def generate_check_vecs (n : Nat) : List (List Int) :=
  removeVec (zeroVec n) ((tuples n).foldl dirStep [])

/-- Row-major flat index of coordinate `q` in a board of shape `dims`
(the default `ndarray` layout). -/
def flatIndex : List Nat → List Nat → Nat
  | _ :: ds, x :: xs => x * ds.prod + flatIndex ds xs
  | _, _ => 0

/-- Read the cell at full coordinate `q`. -/
def cellAt (s : GameState) (q : List Nat) : Option Color :=
  s.cells.getD (flatIndex s.dims q) none

/-- Read the cell at a signed full coordinate (used after the bounds check,
`starting_pos.map(|&i| i as usize)`). -/
def cellAtI (s : GameState) (q : List Int) : Option Color :=
  cellAt s (q.map Int.toNat)

/-- Negation of the out-of-bounds test of `check_direction`: every
component is nonnegative and below the size of its axis. -/
def inBounds (dims : List Nat) (q : List Int) : Bool :=
  (q.zip dims).all fun z => decide (0 ≤ z.1 ∧ z.1 < (z.2 : Int))

/-- The walk in `check_direction` continues from position `q` exactly when
`q` is in bounds and holds a disk of color `c`. -/
def stepOk (s : GameState) (c : Color) (q : List Int) : Bool :=
  inBounds s.dims q && decide (cellAtI s q = some c)

/-- Componentwise addition (`*starting_pos += direction`). -/
def vecAdd (p d : List Int) : List Int := List.zipWith (fun a b => a + b) p d

/-- The `for _ in 0..3` loop of `check_direction`, with the remaining
iteration count as fuel: step, stop at the first failing position,
otherwise count the step and continue. -/
def checkDirGo (s : GameState) (c : Color) (d : List Int) : Nat → List Int → Nat
  | 0, _ => 0
  | n + 1, q =>
      if stepOk s c (vecAdd q d) then checkDirGo s c d n (vecAdd q d) + 1 else 0

/-- `GameState::check_direction`: number of consecutive steps (at most 3)
from `p` along `d` that stay in bounds and hold color `c`. -/
def GameState.check_direction (s : GameState) (c : Color) (p d : List Int) : Nat :=
  checkDirGo s c d 3 p

/-- The loop of `is_win_position` over the direction set: for each
direction, count forward, return true on `score >= 4`, then add the count
in the opposite direction and test again; otherwise continue. -/
def winScan (s : GameState) (c : Color) (p : List Int) : List (List Int) → Bool
  | [] => false
  | d :: rest =>
      if 4 ≤ 1 + s.check_direction c p d then true
      else if 4 ≤ 1 + s.check_direction c p d + s.check_direction c p (negVec d) then true
      else winScan s c p rest

/-- `GameState::is_win_position` for the just-placed disk at full
coordinate `pos` (converted to signed integers, `p as isize`). -/
def GameState.is_win_position (s : GameState) (c : Color) (pos : List Nat) : Bool :=
  winScan s c (pos.map (fun n => (n : Int))) s.check_vecs

/-- Size of the last axis of a shape (the drop axis picked by
`index_from_pos`, which slices the one remaining dimension). -/
def lastSize : List Nat → Nat
  | [] => 0
  | [d] => d
  | _ :: ds => lastSize ds

/-- The scan of `find_position(|elem| elem.is_none())` along the drop-axis
column, searching upward from index `j` with `fuel` cells left. -/
def firstFreeAux (s : GameState) (pos : List Nat) : Nat → Nat → Option Nat
  | 0, _ => none
  | fuel + 1, j =>
      if cellAt s (pos ++ [j]) = none then some j
      else firstFreeAux s pos fuel (j + 1)

/-- Bounds check performed by `ndarray` when slicing with the fixed
indices of `pos` (out of range panics). -/
def posInBounds (dims : List Nat) (pos : List Nat) : Bool :=
  (pos.zip dims).all fun z => decide (z.1 < z.2)

/-- `GameState::insert_disk`: drop a disk of color `c` at the partial
position `pos`; `none` models the `ndarray` slicing panic on an
out-of-range fixed index.  On success the first free cell of the column
becomes `some c` and the full coordinate is returned; a full column
reports the axis-full error (spelled `AxisFull` in src/main.rs, but the
enum of src/err.rs only has `ColumnFull`). -/
def GameState.insert_disk (s : GameState) (c : Color) (pos : List Nat) :
    Option (GameState × Except GameError (List Nat)) :=
  if posInBounds s.dims pos then
    match firstFreeAux s pos (lastSize s.dims) 0 with
    | some j =>
        some ({ s with cells := s.cells.set (flatIndex s.dims (pos ++ [j])) (some c) },
              Except.ok (pos ++ [j]))
    | none => some (s, Except.error GameError.ColumnFull)
  else none

/-- `GameState::play_disk`: reject with `BoardFull` once the round counter
exceeds the cell count, model the `check_input` panic on a wrong-length
position as `none`, insert the disk, test for a win from the landing
coordinate, and increment the round counter only on a non-winning move. -/
def GameState.play_disk (s : GameState) (c : Color) (pos : List Nat) :
    Option (GameState × Except GameError (List Nat × Bool)) :=
  if s.cells.length < s.round then some (s, Except.error GameError.BoardFull)
  else if pos.length = s.dims.length - 1 then
    match s.insert_disk c pos with
    | some (s₁, Except.ok fullPos) =>
        if s₁.is_win_position c fullPos then some (s₁, Except.ok (fullPos, true))
        else some ({ s₁ with round := s₁.round + 1 }, Except.ok (fullPos, false))
    | some (s₁, Except.error e) => some (s₁, Except.error e)
    | none => none
  else none

/-- `GameState::new`: at least two dimensions are required; the board
starts empty, the direction set is generated from the dimension count, and
the round counter starts at 1. -/
def GameState.new (dims : List Nat) : Except GameError GameState :=
  if dims.length < 2 then Except.error GameError.TooFewDimensions
  else Except.ok
    { cells := List.replicate dims.prod none
      dims := dims
      check_vecs := generate_check_vecs dims.length
      round := 1 }

/-- `GameState::max_rounds` (`self.board.len()`). -/
def GameState.max_rounds (s : GameState) : Nat := s.cells.length

/-- `GameState::current_round`. -/
def GameState.current_round (s : GameState) : Nat := s.round

/-- `GameState::disks_played` (`self.current_round() - 1`). -/
def GameState.disks_played (s : GameState) : Nat := s.current_round - 1

/-- Spec-side bounds test, following the spec's words: a stepped coordinate
is out of bounds if some component of it is negative or at least the
board's size along that axis. -/
def specOutOfBounds (dims : List Nat) (q : List Int) : Bool :=
  (q.zip dims).any fun z => decide (z.1 < 0 ∨ (z.2 : Int) ≤ z.1)

/-- Spec-side stopping rule of the walk: a step may be taken exactly when
the stepped coordinate is not out of bounds and its cell holds `c`. -/
def specStepHolds (s : GameState) (c : Color) (q : List Int) : Bool :=
  !(specOutOfBounds s.dims q) && decide (cellAtI s q = some c)

/-- Spec-side walk count: up to 3 steps from `p` in direction `d`,
stopping at the first out-of-bounds step or cell not holding `c`; the
value is the number of steps successfully taken. -/
def specWalkCount (s : GameState) (c : Color) (p d : List Int) : Nat :=
  if !(specStepHolds s c (vecAdd p d)) then 0
  else if !(specStepHolds s c (vecAdd (vecAdd p d) d)) then 1
  else if !(specStepHolds s c (vecAdd (vecAdd (vecAdd p d) d) d)) then 2
  else 3

/-- Well-formedness of a state: the flat cell buffer has exactly one cell
per coordinate of the shape, and there are at least two dimensions. -/
def WF (s : GameState) : Prop :=
  s.cells.length = s.dims.prod ∧ 2 ≤ s.dims.length

/-- The gravity/stacking invariant: along the drop axis (the last
dimension), a cell is occupied only if every cell below it is occupied. -/
def Stacked (s : GameState) : Prop :=
  ∀ pos j k, pos.length = s.dims.length - 1 → posInBounds s.dims pos = true →
    j ≤ k → k < lastSize s.dims →
    cellAt s (pos ++ [k]) ≠ none → cellAt s (pos ++ [j]) ≠ none

/-- States reachable from a fresh game by any sequence of `play_disk`
calls. -/
inductive Reachable : GameState → Prop
  | init : ∀ dims s, GameState.new dims = Except.ok s → Reachable s
  | step : ∀ s c pos s₁ r, Reachable s →
      GameState.play_disk s c pos = some (s₁, r) → Reachable s₁

/-- A fresh game, with an inert placeholder for invalid shapes. -/
def demoNew (dims : List Nat) : GameState :=
  match GameState.new dims with
  | Except.ok s => s
  | Except.error _ => { cells := [], dims := [], check_vecs := [], round := 0 }

/-- The state after one `play_disk` call (unchanged on a rejected call). -/
def demoStep (s : GameState) (c : Color) (pos : List Nat) : GameState :=
  match s.play_disk c pos with
  | some (s₁, _) => s₁
  | none => s

/-- Fresh 4×4 game. -/
def demoA0 : GameState := demoNew [4, 4]

/-- One red disk dropped at column 0, landing at (0,0). -/
def demoA1 : GameState := demoStep demoA0 Color.Red [0]

/-- Two red disks in column 0. -/
def demoA2 : GameState := demoStep demoA1 Color.Red [0]

/-- Three red disks in column 0. -/
def demoA3 : GameState := demoStep demoA2 Color.Red [0]

/-- Four red disks in column 0: the fourth placement wins. -/
def demoA4 : GameState := demoStep demoA3 Color.Red [0]

/-- A further move played after the win at `demoA4` — it is accepted. -/
def demoA5 : GameState := demoStep demoA4 Color.Yellow [1]

/-- A 4×4 board with red disks at (1,0), (2,0), (3,0): a run of three at
the right edge whose fourth position in direction (1,0) is off the
board. -/
def edgeState : GameState :=
  demoStep (demoStep (demoStep (demoNew [4, 4]) Color.Red [1]) Color.Red [2]) Color.Red [3]

/-- A 2×2 board whose column at fixed coordinate [0] is completely full. -/
def fullColState : GameState :=
  demoStep (demoStep (demoNew [2, 2]) Color.Red [0]) Color.Red [0]

/-- A 2×2 board whose round counter has passed the capacity. -/
def overState : GameState :=
  { cells := List.replicate 4 none, dims := [2, 2]
    check_vecs := generate_check_vecs 2, round := 5 }

/-- A board with a zero-sized dimension: capacity 0. -/
def demoZ : GameState := demoNew [0, 3]

/-- The state produced by a single successful `insert_disk` on a fresh
2×2 board at fixed coordinate [1]. -/
def demoIns : GameState :=
  match (demoNew [2, 2]).insert_disk Color.Red [1] with
  | some (t, _) => t
  | none => demoNew [2, 2]

/-! ### Basic lemmas about the embedding -/

theorem insert_disk_error_state (s : GameState) (c : Color) (pos : List Nat)
    (s₁ : GameState) (e : GameError)
    (h : s.insert_disk c pos = some (s₁, Except.error e)) :
    s₁ = s ∧ e = GameError.ColumnFull := by
  unfold GameState.insert_disk at h
  split at h
  · split at h
    · simp at h
    · simp at h
      exact ⟨h.1.symm, h.2.symm⟩
  · simp at h

theorem insert_disk_ok_shape (s : GameState) (c : Color) (pos : List Nat)
    (s₁ : GameState) (q : List Nat)
    (h : s.insert_disk c pos = some (s₁, Except.ok q)) :
    ∃ j, posInBounds s.dims pos = true ∧
      firstFreeAux s pos (lastSize s.dims) 0 = some j ∧
      q = pos ++ [j] ∧
      s₁ = { s with cells := s.cells.set (flatIndex s.dims (pos ++ [j])) (some c) } := by
  unfold GameState.insert_disk at h
  split at h
  next hb =>
    split at h
    next j hff =>
      simp at h
      exact ⟨j, hb, hff, h.2.symm, h.1.symm⟩
    next => simp at h
  · simp at h

theorem play_disk_cases (s : GameState) (c : Color) (pos : List Nat)
    (s₁ : GameState) (r : Except GameError (List Nat × Bool))
    (h : s.play_disk c pos = some (s₁, r)) :
    (s₁ = s ∧ r = Except.error GameError.BoardFull ∧ s.cells.length < s.round) ∨
    (pos.length = s.dims.length - 1 ∧
      ((∃ e, s.insert_disk c pos = some (s, Except.error e) ∧ s₁ = s ∧
          r = Except.error e) ∨
       (∃ s₂ q, s.insert_disk c pos = some (s₂, Except.ok q) ∧
          s₂.is_win_position c q = true ∧ s₁ = s₂ ∧ r = Except.ok (q, true)) ∨
       (∃ s₂ q, s.insert_disk c pos = some (s₂, Except.ok q) ∧
          s₂.is_win_position c q = false ∧
          s₁ = { s₂ with round := s₂.round + 1 } ∧ r = Except.ok (q, false)))) := by
  unfold GameState.play_disk at h
  split at h
  next hfull =>
    left
    simp at h
    exact ⟨h.1.symm, h.2.symm, hfull⟩
  next hfull =>
    split at h
    next hlen =>
      right
      refine ⟨hlen, ?_⟩
      rcases hins : s.insert_disk c pos with _ | ⟨s₂, r₂⟩
      · rw [hins] at h; simp at h
      · rw [hins] at h
        rcases r₂ with e | q
        · simp at h
          rcases insert_disk_error_state s c pos s₂ e hins with ⟨hs₂, _⟩
          subst hs₂
          exact Or.inl ⟨e, rfl, h.1.symm, h.2.symm⟩
        · by_cases hw : s₂.is_win_position c q
          · simp [hw] at h
            exact Or.inr (Or.inl ⟨s₂, q, rfl, hw, h.1.symm, h.2.symm⟩)
          · simp [hw] at h
            exact Or.inr (Or.inr ⟨s₂, q, rfl, by simpa using hw, h.1.symm, h.2.symm⟩)
    next => simp at h

theorem insert_disk_ok_round (s : GameState) (c : Color) (pos : List Nat)
    (s₂ : GameState) (q : List Nat)
    (h : s.insert_disk c pos = some (s₂, Except.ok q)) :
    s₂.round = s.round ∧ s₂.dims = s.dims ∧ s₂.check_vecs = s.check_vecs ∧
      s₂.cells.length = s.cells.length := by
  obtain ⟨j, _, _, _, hs⟩ := insert_disk_ok_shape s c pos s₂ q h
  subst hs
  exact ⟨rfl, rfl, rfl, by simp⟩

/-- C5: the axis-full rejection, evaluated at a concrete failing input.
On a 2×2 board whose column at [0] holds two disks, a further
`play_disk` at [0] fails with the axis-full error and returns the state
unchanged (board and round counter untouched); the error variant is the
`ColumnFull` of src/err.rs, since the `AxisFull` written in src/main.rs
does not exist in the declared `GameError` enumeration. -/
theorem claim_C5 :
    fullColState.round ≤ fullColState.max_rounds ∧
    fullColState.play_disk Color.Red [0] =
      some (fullColState, Except.error GameError.ColumnFull) :=
  ⟨by decide, rfl⟩

/-- C6: once the round counter exceeds the board's capacity (the product
of the dimension sizes), `play_disk` fails with `BoardFull` for every
color and every position — even one of the wrong length, since the check
precedes any board access — and returns the state unchanged. -/
theorem claim_C6 (s : GameState) (c : Color) (pos : List Nat)
    (hcap : s.cells.length = s.dims.prod) (h : s.dims.prod < s.round) :
    s.play_disk c pos = some (s, Except.error GameError.BoardFull) := by
  unfold GameState.play_disk
  rw [hcap]
  simp [h]

/-- C6 witness: a 2×2 board at round 5 rejects a move at a nonsense
position with `BoardFull`. -/
theorem claim_C6_witness :
    overState.cells.length = overState.dims.prod ∧
    overState.dims.prod < overState.round ∧
    overState.play_disk Color.Red [7, 7, 7] =
      some (overState, Except.error GameError.BoardFull) :=
  ⟨by decide, by decide, claim_C6 overState Color.Red [7, 7, 7] (by decide) (by decide)⟩

/-- C7: `disks_played` is `current_round - 1` in every state; the round
counter starts at 1, increments by exactly 1 on an accepted non-winning
move, and is unchanged by a winning move or a rejected move. -/
theorem claim_C7 :
    (∀ s : GameState, s.disks_played = s.current_round - 1) ∧
    (∀ dims s, GameState.new dims = Except.ok s → s.round = 1) ∧
    (∀ s c pos s₁ q, GameState.play_disk s c pos = some (s₁, Except.ok (q, false)) →
        s₁.round = s.round + 1) ∧
    (∀ s c pos s₁ q, GameState.play_disk s c pos = some (s₁, Except.ok (q, true)) →
        s₁.round = s.round) ∧
    (∀ s c pos s₁ e, GameState.play_disk s c pos = some (s₁, Except.error e) →
        s₁ = s) := by
  refine ⟨fun s => rfl, ?_, ?_, ?_, ?_⟩
  · intro dims s h
    unfold GameState.new at h
    split at h
    · simp at h
    · simp at h
      rw [← h]
  · intro s c pos s₁ q h
    rcases play_disk_cases s c pos s₁ _ h with ⟨_, hr, _⟩ | ⟨_, hcase⟩
    · simp at hr
    · rcases hcase with ⟨e, _, _, hr⟩ | ⟨s₂, q₂, hins, _, hs₁, hr⟩ | ⟨s₂, q₂, hins, _, hs₁, hr⟩
      · simp at hr
      · simp at hr
      · subst hs₁
        simp [(insert_disk_ok_round s c pos s₂ q₂ hins).1]
  · intro s c pos s₁ q h
    rcases play_disk_cases s c pos s₁ _ h with ⟨_, hr, _⟩ | ⟨_, hcase⟩
    · simp at hr
    · rcases hcase with ⟨e, _, _, hr⟩ | ⟨s₂, q₂, hins, _, hs₁, hr⟩ | ⟨s₂, q₂, hins, _, hs₁, hr⟩
      · simp at hr
      · rw [hs₁]
        exact (insert_disk_ok_round s c pos s₂ q₂ hins).1
      · simp at hr
  · intro s c pos s₁ e h
    rcases play_disk_cases s c pos s₁ _ h with ⟨hs₁, _, _⟩ | ⟨_, hcase⟩
    · exact hs₁
    · rcases hcase with ⟨e₂, _, hs₁, _⟩ | ⟨s₂, q₂, _, _, _, hr⟩ | ⟨s₂, q₂, _, _, _, hr⟩
      · exact hs₁
      · simp at hr
      · simp at hr

/-- C7 witness: the first move of the 4×4 demo game is accepted, does not
win, and advances the round counter from 1 to 2. -/
theorem claim_C7_witness :
    demoA0.play_disk Color.Red [0] = some (demoA1, Except.ok ([0, 0], false)) ∧
    demoA1.round = demoA0.round + 1 :=
  ⟨rfl, claim_C7.2.2.1 demoA0 Color.Red [0] demoA1 [0, 0] rfl⟩

/-- C9 counterexample: the fourth red disk in column 0 of a 4×4 game wins,
yet the very next `play_disk` call is accepted and mutates both the board
and the round counter — there is no terminal Won state. -/
theorem claim_C9_cex :
    demoA3.play_disk Color.Red [0] = some (demoA4, Except.ok ([0, 3], true)) ∧
    demoA4.play_disk Color.Yellow [1] = some (demoA5, Except.ok ([1, 0], false)) ∧
    demoA5.cells ≠ demoA4.cells ∧
    demoA5.round = demoA4.round + 1 :=
  ⟨rfl, rfl, by decide, rfl⟩

/-- C9 (amended): a winning `play_disk` call leaves the round counter (and
the shape and direction set) unchanged, but the resulting state is not
terminal: a subsequent `play_disk` call can be accepted and mutate the
board, as the post-win demo move shows. -/
theorem claim_C9_amended :
    (∀ s c pos s₁ q, GameState.play_disk s c pos = some (s₁, Except.ok (q, true)) →
        s₁.round = s.round ∧ s₁.dims = s.dims ∧ s₁.check_vecs = s.check_vecs) ∧
    (demoA4.play_disk Color.Yellow [1] = some (demoA5, Except.ok ([1, 0], false)) ∧
      demoA5.cells ≠ demoA4.cells) := by
  refine ⟨?_, rfl, by decide⟩
  intro s c pos s₁ q h
  rcases play_disk_cases s c pos s₁ _ h with ⟨_, hr, _⟩ | ⟨_, hcase⟩
  · simp at hr
  · rcases hcase with ⟨e, _, _, hr⟩ | ⟨s₂, q₂, hins, _, hs₁, hr⟩ | ⟨s₂, q₂, hins, _, hs₁, hr⟩
    · simp at hr
    · rw [hs₁]
      obtain ⟨h1, h2, h3, _⟩ := insert_disk_ok_round s c pos s₂ q₂ hins
      exact ⟨h1, h2, h3⟩
    · simp at hr

/-- C9 witness: the amended statement applied to the winning fourth move
of the demo game. -/
theorem claim_C9_witness :
    demoA3.play_disk Color.Red [0] = some (demoA4, Except.ok ([0, 3], true)) ∧
    demoA4.round = demoA3.round :=
  ⟨rfl, (claim_C9_amended.1 demoA3 Color.Red [0] demoA4 [0, 3] rfl).1⟩

/-- C10: `new` fails with `TooFewDimensions` exactly on dimension vectors
of length 0 or 1 and succeeds on any longer vector; the sizes themselves
are not validated, so a shape containing a 0 is accepted and yields a
capacity-0 board on which every `play_disk` call fails with `BoardFull`
(the round counter starts at 1 > 0). -/
theorem claim_C10 :
    (∀ dims : List Nat, dims.length < 2 →
        GameState.new dims = Except.error GameError.TooFewDimensions) ∧
    (∀ dims : List Nat, 2 ≤ dims.length → ∃ s, GameState.new dims = Except.ok s) ∧
    (∀ dims s, GameState.new dims = Except.ok s → 0 ∈ dims →
        s.max_rounds = 0 ∧
        ∀ c pos, s.play_disk c pos = some (s, Except.error GameError.BoardFull)) := by
  refine ⟨?_, ?_, ?_⟩
  · intro dims h
    unfold GameState.new
    simp [h]
  · intro dims h
    unfold GameState.new
    rw [if_neg (by omega)]
    exact ⟨_, rfl⟩
  · intro dims s h h0
    unfold GameState.new at h
    split at h
    · simp at h
    · simp at h
      have hl : s.max_rounds = 0 := by
        rw [← h]
        simp [GameState.max_rounds, List.prod_eq_zero h0]
      have hr : s.round = 1 := by rw [← h]
      refine ⟨hl, ?_⟩
      intro c pos
      unfold GameState.play_disk
      rw [show s.cells.length = 0 from hl, hr]
      simp

theorem inBounds_eq_not_specOutOfBounds (dims : List Nat) (q : List Int) :
    inBounds dims q = !(specOutOfBounds dims q) := by
  unfold inBounds specOutOfBounds
  generalize q.zip dims = l
  induction l with
  | nil => rfl
  | cons z rest ih =>
      simp only [List.all_cons, List.any_cons, Bool.not_or, ih]
      have hz : decide (0 ≤ z.1 ∧ z.1 < (z.2 : Int)) = !decide (z.1 < 0 ∨ (z.2 : Int) ≤ z.1) := by
        rw [← decide_not, decide_eq_decide]
        omega
      rw [hz]

theorem specStepHolds_eq_stepOk (s : GameState) (c : Color) (q : List Int) :
    specStepHolds s c q = stepOk s c q := by
  unfold stepOk specStepHolds
  rw [inBounds_eq_not_specOutOfBounds]

theorem check_direction_eq_spec (s : GameState) (c : Color) (p d : List Int) :
    s.check_direction c p d = specWalkCount s c p d := by
  have e1 : ∀ q, checkDirGo s c d 1 q = if stepOk s c (vecAdd q d) then 1 else 0 :=
    fun _ => rfl
  have e2 : ∀ q, checkDirGo s c d 2 q =
      if stepOk s c (vecAdd q d) then checkDirGo s c d 1 (vecAdd q d) + 1 else 0 :=
    fun _ => rfl
  have e3 : s.check_direction c p d =
      if stepOk s c (vecAdd p d) then checkDirGo s c d 2 (vecAdd p d) + 1 else 0 := rfl
  rw [e3]
  unfold specWalkCount
  simp only [specStepHolds_eq_stepOk]
  cases h1 : stepOk s c (vecAdd p d)
  · simp [h1]
  · cases h2 : stepOk s c (vecAdd (vecAdd p d) d)
    · simp [h1, h2, e2]
    · cases h3 : stepOk s c (vecAdd (vecAdd (vecAdd p d) d) d)
      · simp [h1, h2, h3, e2, e1]
      · simp [h1, h2, h3, e2, e1]

theorem winScan_eq_true_iff (s : GameState) (c : Color) (p : List Int)
    (L : List (List Int)) :
    winScan s c p L = true ↔
      ∃ d ∈ L, 4 ≤ 1 + s.check_direction c p d + s.check_direction c p (negVec d) := by
  induction L with
  | nil => simp [winScan]
  | cons d rest ih =>
      unfold winScan
      by_cases h1 : 4 ≤ 1 + s.check_direction c p d
      · rw [if_pos h1]
        constructor
        · intro _
          exact ⟨d, by simp, by omega⟩
        · intro _
          rfl
      · rw [if_neg h1]
        by_cases h2 : 4 ≤ 1 + s.check_direction c p d + s.check_direction c p (negVec d)
        · rw [if_pos h2]
          constructor
          · intro _
            exact ⟨d, by simp, h2⟩
          · intro _
            rfl
        · rw [if_neg h2, ih]
          constructor
          · rintro ⟨d₂, hd₂, h4⟩
            exact ⟨d₂, by simp [hd₂], h4⟩
          · rintro ⟨d₂, hd₂, h4⟩
            rcases List.mem_cons.mp hd₂ with heq | hmem
            · subst heq
              exact absurd h4 h2
            · exact ⟨d₂, hmem, h4⟩

/-- C1: `is_win_position` returns true exactly when some direction of the
cached canonical set yields, by the spec's walking rule (1 for the placed
disk, plus at most 3 consecutive same-color in-bounds steps each way), a
combined count of at least 4; and it returns true as soon as one
direction reaches 4, irrespective of the remaining directions. -/
theorem claim_C1 :
    (∀ (s : GameState) (c : Color) (pos : List Nat),
        s.is_win_position c pos = true ↔
          ∃ d ∈ s.check_vecs,
            4 ≤ 1 + specWalkCount s c (pos.map (fun n => (n : Int))) d +
                specWalkCount s c (pos.map (fun n => (n : Int))) (negVec d)) ∧
    (∀ (s : GameState) (c : Color) (p d : List Int) (rest : List (List Int)),
        4 ≤ 1 + s.check_direction c p d + s.check_direction c p (negVec d) →
        winScan s c p (d :: rest) = true) := by
  constructor
  · intro s c pos
    unfold GameState.is_win_position
    rw [winScan_eq_true_iff]
    simp only [check_direction_eq_spec]
  · intro s c p d rest h
    unfold winScan
    by_cases h1 : 4 ≤ 1 + s.check_direction c p d
    · rw [if_pos h1]
    · rw [if_neg h1, if_pos h]

/-- C1 witness: the winning state of the demo game reaches count 4 along
direction (0,1), and the scan over a direction list headed by it returns
true at once. -/
theorem claim_C1_witness :
    4 ≤ 1 + demoA4.check_direction Color.Red [0, 3] [0, 1] +
        demoA4.check_direction Color.Red [0, 3] (negVec [0, 1]) ∧
    winScan demoA4 Color.Red [0, 3] [[0, 1]] = true :=
  ⟨by decide, claim_C1.2 demoA4 Color.Red [0, 3] [0, 1] [] (by decide)⟩

/-- C2: each step of the win scan stops exactly at a coordinate with a
negative component or one at least the size of its axis (the walk count
follows the spec's per-step rule, and an out-of-bounds coordinate never
passes the step test), and a near-edge run of three same-color disks
whose fourth position lies outside the board is not reported as a win. -/
theorem claim_C2 :
    (∀ (s : GameState) (c : Color) (p d : List Int),
        s.check_direction c p d = specWalkCount s c p d) ∧
    (∀ (s : GameState) (c : Color) (q : List Int),
        specOutOfBounds s.dims q = true → stepOk s c q = false) ∧
    edgeState.is_win_position Color.Red [3, 0] = false := by
  refine ⟨check_direction_eq_spec, ?_, by decide⟩
  intro s c q h
  unfold stepOk
  rw [inBounds_eq_not_specOutOfBounds, h]
  rfl

/-- C2 witness: the coordinate (4,0) off the 4×4 edge board is
out of bounds and fails the step test. -/
theorem claim_C2_witness :
    specOutOfBounds edgeState.dims [4, 0] = true ∧
    stepOk edgeState Color.Red [4, 0] = false :=
  ⟨by decide, claim_C2.2.1 edgeState Color.Red [4, 0] (by decide)⟩

theorem tuples_length (n : Nat) : (tuples n).length = 3 ^ n := by
  induction n with
  | zero => rfl
  | succ n ih => simp [tuples, ih, pow_succ]; ring

theorem mem_tuples (n : Nat) (v : List Int) :
    v ∈ tuples n ↔ v.length = n ∧ ∀ x ∈ v, x ∈ ([1, 0, -1] : List Int) := by
  induction n generalizing v with
  | zero =>
      constructor
      · intro h
        simp only [tuples, List.mem_singleton] at h
        subst h
        simp
      · rintro ⟨h, _⟩
        simp [tuples, List.length_eq_zero.mp h]
  | succ n ih =>
      constructor
      · intro h
        simp only [tuples, List.mem_append, List.mem_map] at h
        rcases h with (⟨w, hw, rfl⟩ | ⟨w, hw, rfl⟩) | ⟨w, hw, rfl⟩ <;>
          obtain ⟨hl, hc⟩ := (ih w).mp hw <;>
          refine ⟨by simp [hl], ?_⟩ <;>
          intro x hx <;>
          rcases List.mem_cons.mp hx with rfl | hx <;>
          first
            | exact hc x hx
            | simp
      · rintro ⟨hl, hc⟩
        rcases v with _ | ⟨x, w⟩
        · simp at hl
        · have hw : w ∈ tuples n :=
            (ih w).mpr ⟨by simpa using hl, fun y hy => hc y (List.mem_cons_of_mem x hy)⟩
          have hx := hc x (List.mem_cons_self x w)
          simp only [tuples, List.mem_append, List.mem_map]
          simp only [List.mem_cons, List.not_mem_nil, or_false] at hx
          rcases hx with rfl | rfl | rfl
          · exact Or.inl (Or.inl ⟨w, hw, rfl⟩)
          · exact Or.inl (Or.inr ⟨w, hw, rfl⟩)
          · exact Or.inr ⟨w, hw, rfl⟩

theorem tuples_nodup (n : Nat) : (tuples n).Nodup := by
  induction n with
  | zero => simp [tuples]
  | succ n ih =>
      have hinj : ∀ c : Int, Function.Injective (fun v : List Int => c :: v) := by
        intro c a b h
        simpa using h
    
      have hmap : ∀ c : Int, ((tuples n).map (fun v => c :: v)).Nodup :=
        fun c => ih.map (hinj c)
      have hdis : ∀ c₁ c₂ : Int, c₁ ≠ c₂ →
          List.Disjoint ((tuples n).map (fun v => c₁ :: v))
            ((tuples n).map (fun v => c₂ :: v)) := by
        intro c₁ c₂ hne a h1 h2
        simp only [List.mem_map] at h1 h2
        obtain ⟨w, _, rfl⟩ := h1
        obtain ⟨w₂, _, heq⟩ := h2
        have hh : some c₂ = some c₁ := by simpa using congrArg List.head? heq
        exact hne (by simpa using hh.symm)
      simp only [tuples]
      refine List.Nodup.append (List.Nodup.append (hmap 1) (hmap 0) (hdis 1 0 (by norm_num))) (hmap (-1)) ?_
      intro a ha h2
      rcases List.mem_append.mp ha with h1 | h1
      · exact hdis 1 (-1) (by norm_num) h1 h2
      · exact hdis 0 (-1) (by norm_num) h1 h2

theorem tuples_neg_mem (n : Nat) (v : List Int) (h : v ∈ tuples n) :
    negVec v ∈ tuples n := by
  obtain ⟨hl, hc⟩ := (mem_tuples n v).mp h
  refine (mem_tuples n (negVec v)).mpr ⟨by simp [negVec, hl], ?_⟩
  intro x hx
  simp only [negVec, List.mem_map] at hx
  obtain ⟨y, hy, rfl⟩ := hx
  have hy2 := hc y hy
  simp only [List.mem_cons, List.not_mem_nil, or_false] at hy2 ⊢
  rcases hy2 with rfl | rfl | rfl <;> norm_num

theorem zeroVec_mem_tuples (n : Nat) : zeroVec n ∈ tuples n := by
  refine (mem_tuples n _).mpr ⟨by simp [zeroVec], ?_⟩
  intro x hx
  simp only [zeroVec, List.mem_replicate] at hx
  simp [hx.2]

theorem negVec_negVec (v : List Int) : negVec (negVec v) = v := by
  induction v with
  | nil => rfl
  | cons x xs ih => simp [negVec]

theorem negVec_inj : Function.Injective negVec := by
  intro a b h
  have h2 := congrArg negVec h
  rwa [negVec_negVec, negVec_negVec] at h2

theorem negVec_eq_self (v : List Int) (h : negVec v = v) : v = zeroVec v.length := by
  induction v with
  | nil => rfl
  | cons x xs ih =>
      simp only [negVec, List.map_cons] at h
      injection h with h1 h2
      have hx : x = 0 := by omega
      subst hx
      have h3 : xs = List.replicate xs.length 0 := by simpa [zeroVec] using ih h2
      show (0 : Int) :: xs = 0 :: List.replicate xs.length (0 : Int)
      rw [← h3]

theorem negVec_zeroVec (n : Nat) : negVec (zeroVec n) = zeroVec n := by
  simp [negVec, zeroVec, List.map_replicate]

theorem mem_foldl_dirStep (acc L : List (List Int)) (a : List Int)
    (h : a ∈ acc) : a ∈ L.foldl dirStep acc := by
  induction L generalizing acc with
  | nil => exact h
  | cons v rest ih =>
      simp only [List.foldl_cons]
      apply ih
      unfold dirStep
      split
      · exact h
      · exact List.mem_append_left _ h

theorem foldl_dirStep_sub (acc L : List (List Int)) (a : List Int)
    (h : a ∈ L.foldl dirStep acc) : a ∈ acc ∨ a ∈ L := by
  induction L generalizing acc with
  | nil => exact Or.inl h
  | cons v rest ih =>
      simp only [List.foldl_cons] at h
      rcases ih (dirStep acc v) h with h2 | h2
      · unfold dirStep at h2
        split at h2
        · exact Or.inl h2
        · rcases List.mem_append.mp h2 with h3 | h3
          · exact Or.inl h3
          · simp only [List.mem_singleton] at h3
            subst h3
            exact Or.inr (List.mem_cons_self a rest)
      · exact Or.inr (List.mem_cons_of_mem _ h2)

theorem foldl_dirStep_cover (acc L : List (List Int)) (v : List Int) (hv : v ∈ L) :
    v ∈ L.foldl dirStep acc ∨ negVec v ∈ L.foldl dirStep acc := by
  induction L generalizing acc with
  | nil => simp at hv
  | cons w rest ih =>
      simp only [List.foldl_cons]
      rcases List.mem_cons.mp hv with rfl | hv
      · by_cases hneg : negVec v ∈ acc
        · right
          apply mem_foldl_dirStep
          unfold dirStep
          rw [if_pos hneg]
          exact hneg
        · left
          apply mem_foldl_dirStep
          unfold dirStep
          rw [if_neg hneg]
          exact List.mem_append_right _ (by simp)
      · exact ih (dirStep acc w) hv

theorem foldl_dirStep_inv (acc L : List (List Int))
    (hacc : ∀ a ∈ acc, negVec a ∈ acc → negVec a = a) :
    ∀ a ∈ L.foldl dirStep acc, negVec a ∈ L.foldl dirStep acc → negVec a = a := by
  induction L generalizing acc with
  | nil => exact hacc
  | cons v rest ih =>
      simp only [List.foldl_cons]
      by_cases hneg : negVec v ∈ acc
      · apply ih
        unfold dirStep
        rw [if_pos hneg]
        exact hacc
      · apply ih
        unfold dirStep
        rw [if_neg hneg]
        intro a ha hna
        rcases List.mem_append.mp ha with ha | ha
        · rcases List.mem_append.mp hna with hna | hna
          · exact hacc a ha hna
          · simp only [List.mem_singleton] at hna
            exfalso
            apply hneg
            have hva : negVec v = a := by rw [← hna, negVec_negVec]
            rw [hva]
            exact ha
        · simp only [List.mem_singleton] at ha
          subst ha
          rcases List.mem_append.mp hna with hna | hna
          · exact absurd hna hneg
          · simpa using hna

theorem foldl_dirStep_nodup (acc L : List (List Int)) (h : (acc ++ L).Nodup) :
    (L.foldl dirStep acc).Nodup := by
  induction L generalizing acc with
  | nil => simpa using h
  | cons v rest ih =>
      simp only [List.foldl_cons]
      apply ih
      unfold dirStep
      split
      · exact h.sublist ((List.sublist_cons_self v rest).append_left acc)
      · rw [List.append_assoc]
        exact h

theorem removeVec_subset (z : List Int) (l : List (List Int)) :
    ∀ a ∈ removeVec z l, a ∈ l := by
  induction l with
  | nil => simp [removeVec]
  | cons v rest ih =>
      intro a ha
      unfold removeVec at ha
      split at ha
      · exact List.mem_cons_of_mem _ ha
      · rcases List.mem_cons.mp ha with rfl | ha
        · exact List.mem_cons_self a rest
        · exact List.mem_cons_of_mem _ (ih a ha)

theorem removeVec_length (z : List Int) (l : List (List Int)) (h : z ∈ l) :
    (removeVec z l).length = l.length - 1 := by
  induction l with
  | nil => simp at h
  | cons v rest ih =>
      unfold removeVec
      split
      · simp
      · next hne =>
          have hz : z ∈ rest := by
            rcases List.mem_cons.mp h with rfl | h2
            · exact absurd rfl hne
            · exact h2
          have hp : 0 < rest.length := List.length_pos.mpr (List.ne_nil_of_mem hz)
          simp only [List.length_cons, ih hz]
          omega

theorem removeVec_nodup (z : List Int) (l : List (List Int)) (h : l.Nodup) :
    (removeVec z l).Nodup := by
  induction l with
  | nil => simp [removeVec]
  | cons v rest ih =>
      rcases List.nodup_cons.mp h with ⟨hv, hrest⟩
      unfold removeVec
      split
      · exact hrest
      · exact List.nodup_cons.mpr ⟨fun hmem => hv (removeVec_subset z rest v hmem), ih hrest⟩

theorem mem_removeVec (z : List Int) (l : List (List Int)) (h : l.Nodup) (a : List Int) :
    a ∈ removeVec z l ↔ a ≠ z ∧ a ∈ l := by
  induction l with
  | nil => simp [removeVec]
  | cons v rest ih =>
      rcases List.nodup_cons.mp h with ⟨hv, hrest⟩
      unfold removeVec
      split
      · next heq =>
          subst heq
          constructor
          · intro ha
            exact ⟨fun haz => hv (haz ▸ ha), List.mem_cons_of_mem _ ha⟩
          · rintro ⟨hne, ha⟩
            rcases List.mem_cons.mp ha with rfl | ha
            · exact absurd rfl hne
            · exact ha
      · next hne =>
          constructor
          · intro ha
            rcases List.mem_cons.mp ha with rfl | ha
            · exact ⟨hne, List.mem_cons_self a rest⟩
            · have h2 := (ih hrest).mp ha
              exact ⟨h2.1, List.mem_cons_of_mem _ h2.2⟩
          · rintro ⟨hnez, ha⟩
            rcases List.mem_cons.mp ha with rfl | ha
            · exact List.mem_cons_self a (removeVec z rest)
            · exact List.mem_cons_of_mem _ ((ih hrest).mpr ⟨hnez, ha⟩)

theorem dirFold_length (n : Nat) :
    ((tuples n).foldl dirStep []).length = (3 ^ n + 1) / 2 := by
  classical
  have hsub : ∀ a ∈ (tuples n).foldl dirStep [], a ∈ tuples n := by
    intro a ha
    rcases foldl_dirStep_sub [] (tuples n) a ha with h | h
    · simp at h
    · exact h
  have hcover : ∀ v ∈ tuples n,
      v ∈ (tuples n).foldl dirStep [] ∨ negVec v ∈ (tuples n).foldl dirStep [] :=
    fun v hv => foldl_dirStep_cover [] (tuples n) v hv
  have hinv : ∀ a ∈ (tuples n).foldl dirStep [],
      negVec a ∈ (tuples n).foldl dirStep [] → negVec a = a :=
    foldl_dirStep_inv [] (tuples n) (by simp)
  have hnd : ((tuples n).foldl dirStep []).Nodup :=
    foldl_dirStep_nodup [] (tuples n) (by simpa using tuples_nodup n)
  have hAcard : ((tuples n).foldl dirStep []).toFinset.card =
      ((tuples n).foldl dirStep []).length := List.toFinset_card_of_nodup hnd
  have hBcard : (((tuples n).foldl dirStep []).toFinset.image negVec).card =
      ((tuples n).foldl dirStep []).toFinset.card :=
    Finset.card_image_of_injective _ negVec_inj
  have hunion : ((tuples n).foldl dirStep []).toFinset ∪
      ((tuples n).foldl dirStep []).toFinset.image negVec = (tuples n).toFinset := by
    ext x
    simp only [Finset.mem_union, Finset.mem_image, List.mem_toFinset]
    constructor
    · rintro (hx | ⟨a, ha, rfl⟩)
      · exact hsub x hx
      · exact tuples_neg_mem n a (hsub a ha)
    · intro hx
      rcases hcover x hx with h | h
      · exact Or.inl h
      · exact Or.inr ⟨negVec x, h, negVec_negVec x⟩
  have hz : zeroVec n ∈ (tuples n).foldl dirStep [] := by
    rcases hcover (zeroVec n) (zeroVec_mem_tuples n) with h | h
    · exact h
    · rwa [negVec_zeroVec] at h
  have hinter : ((tuples n).foldl dirStep []).toFinset ∩
      ((tuples n).foldl dirStep []).toFinset.image negVec = {zeroVec n} := by
    ext x
    simp only [Finset.mem_inter, Finset.mem_image, Finset.mem_singleton, List.mem_toFinset]
    constructor
    · rintro ⟨hx, a, ha, rfl⟩
      have h1 : negVec a = a := hinv a ha hx
      have h2 : a = zeroVec a.length := negVec_eq_self a h1
      have h3 : a.length = n := ((mem_tuples n a).mp (hsub a ha)).1
      rw [h1, h2, h3]
    · rintro rfl
      exact ⟨hz, zeroVec n, hz, negVec_zeroVec n⟩
  have hE : (tuples n).toFinset.card = 3 ^ n := by
    rw [List.toFinset_card_of_nodup (tuples_nodup n), tuples_length]
  have hcount := Finset.card_union_add_card_inter
    ((tuples n).foldl dirStep []).toFinset
    (((tuples n).foldl dirStep []).toFinset.image negVec)
  rw [hunion, hinter, hE, hBcard, hAcard] at hcount
  simp only [Finset.card_singleton] at hcount
  omega

/-- C3: for every dimension count `D ≥ 2`, the generated canonical
direction set has exactly `(3^D - 1)/2` distinct elements, each a
length-`D` vector over `{-1,0,1}`; the all-zero vector is not an element;
and no element is the negation of another (or of itself). -/
theorem claim_C3 (D : Nat) (hD : 2 ≤ D) :
    (generate_check_vecs D).length = (3 ^ D - 1) / 2 ∧
    (generate_check_vecs D).Nodup ∧
    (∀ v ∈ generate_check_vecs D, v.length = D ∧ ∀ x ∈ v, x = -1 ∨ x = 0 ∨ x = 1) ∧
    zeroVec D ∉ generate_check_vecs D ∧
    (∀ a ∈ generate_check_vecs D, ∀ b ∈ generate_check_vecs D, a ≠ negVec b) := by
  have hnd : ((tuples D).foldl dirStep []).Nodup :=
    foldl_dirStep_nodup [] (tuples D) (by simpa using tuples_nodup D)
  have hsub : ∀ a ∈ (tuples D).foldl dirStep [], a ∈ tuples D := by
    intro a ha
    rcases foldl_dirStep_sub [] (tuples D) a ha with h | h
    · simp at h
    · exact h
  have hinv : ∀ a ∈ (tuples D).foldl dirStep [],
      negVec a ∈ (tuples D).foldl dirStep [] → negVec a = a :=
    foldl_dirStep_inv [] (tuples D) (by simp)
  have hz : zeroVec D ∈ (tuples D).foldl dirStep [] := by
    rcases foldl_dirStep_cover [] (tuples D) (zeroVec D) (zeroVec_mem_tuples D) with h | h
    · exact h
    · rwa [negVec_zeroVec] at h
  have hgen : ∀ a ∈ generate_check_vecs D,
      a ≠ zeroVec D ∧ a ∈ (tuples D).foldl dirStep [] := by
    intro a ha
    exact (mem_removeVec _ _ hnd a).mp ha
  refine ⟨?_, ?_, ?_, ?_, ?_⟩
  · unfold generate_check_vecs
    rw [removeVec_length _ _ hz, dirFold_length]
    obtain ⟨k, hk⟩ := (Odd.pow (⟨1, by norm_num⟩ : Odd (3 : Nat)) : Odd (3 ^ D))
    omega
  · exact removeVec_nodup _ _ hnd
  · intro v hv
    have hvt : v ∈ tuples D := hsub v (hgen v hv).2
    obtain ⟨hl, hc⟩ := (mem_tuples D v).mp hvt
    refine ⟨hl, ?_⟩
    intro x hx
    have := hc x hx
    simp only [List.mem_cons, List.not_mem_nil, or_false] at this
    tauto
  · intro h
    exact (hgen _ h).1 rfl
  · intro a ha b hb hab
    obtain ⟨haz, haR⟩ := hgen a ha
    obtain ⟨hbz, hbR⟩ := hgen b hb
    have hnb : negVec b ∈ (tuples D).foldl dirStep [] := hab ▸ haR
    have h1 : negVec b = b := hinv b hbR hnb
    have h2 : b = zeroVec b.length := negVec_eq_self b h1
    have h3 : b.length = D := ((mem_tuples D b).mp (hsub b hbR)).1
    exact hbz (h3 ▸ h2)

/-- C3 witness: the claim instantiated at `D = 2`, where the set is the
four vectors `[1,1], [1,0], [1,-1], [0,1]`. -/
theorem claim_C3_witness :
    (2 ≤ 2 ∧ (generate_check_vecs 2).length = (3 ^ 2 - 1) / 2) ∧
    zeroVec 2 ∉ generate_check_vecs 2 :=
  ⟨⟨by decide, (claim_C3 2 (by decide)).1⟩, (claim_C3 2 (by decide)).2.2.2.1⟩

theorem getD_set_self (l : List (Option Color)) (i : Nat) (v : Option Color)
    (h : i < l.length) : (l.set i v).getD i none = v := by
  induction l generalizing i with
  | nil => simp at h
  | cons x xs ih =>
      cases i with
      | zero => rfl
      | succ i => exact ih i (by simpa using h)

theorem getD_set_other (l : List (Option Color)) (i j : Nat) (v : Option Color)
    (h : i ≠ j) : (l.set i v).getD j none = l.getD j none := by
  induction l generalizing i j with
  | nil => rfl
  | cons x xs ih =>
      cases i with
      | zero =>
          cases j with
          | zero => exact absurd rfl h
          | succ j => rfl
      | succ i =>
          cases j with
          | zero => rfl
          | succ j => exact ih i j (fun hh => h (by rw [hh]))

theorem replicate_getD (m i : Nat) :
    (List.replicate m (none : Option Color)).getD i none = none := by
  induction m generalizing i with
  | zero => rfl
  | succ m ih =>
      cases i with
      | zero => rfl
      | succ i => exact ih i

theorem flatIndex_lt (dims q : List Nat) (h : List.Forall₂ (· < ·) q dims) :
    flatIndex dims q < dims.prod := by
  induction h with
  | nil => simp [flatIndex]
  | @cons x y xs ys hxy hrest ih =>
      simp only [flatIndex, List.prod_cons]
      calc x * ys.prod + flatIndex ys xs < x * ys.prod + ys.prod := by omega
        _ = (x + 1) * ys.prod := by ring
        _ ≤ y * ys.prod := Nat.mul_le_mul_right _ (by omega)

theorem mul_add_inj (P x y r₁ r₂ : Nat) (h₁ : r₁ < P) (h₂ : r₂ < P)
    (h : x * P + r₁ = y * P + r₂) : x = y ∧ r₁ = r₂ := by
  have hP : 0 < P := by omega
  have hx : x = y := by
    have e1 : (x * P + r₁) / P = x := by
      rw [Nat.mul_comm, Nat.mul_add_div hP]
      simp [Nat.div_eq_of_lt h₁]
    have e2 : (y * P + r₂) / P = y := by
      rw [Nat.mul_comm, Nat.mul_add_div hP]
      simp [Nat.div_eq_of_lt h₂]
    rw [← e1, ← e2, h]
  subst hx
  exact ⟨rfl, by omega⟩

theorem flatIndex_inj (dims q₁ q₂ : List Nat)
    (h₁ : List.Forall₂ (· < ·) q₁ dims) (h₂ : List.Forall₂ (· < ·) q₂ dims)
    (heq : flatIndex dims q₁ = flatIndex dims q₂) : q₁ = q₂ := by
  induction dims generalizing q₁ q₂ with
  | nil =>
      cases h₁
      cases h₂
      rfl
  | cons d ds ih =>
      cases h₁ with
      | @cons x _ xs _ hx hxs =>
          cases h₂ with
          | @cons y _ ys _ hy hys =>
              simp only [flatIndex] at heq
              have hr₁ : flatIndex ds xs < ds.prod := flatIndex_lt ds xs hxs
              have hr₂ : flatIndex ds ys < ds.prod := flatIndex_lt ds ys hys
              obtain ⟨hxy, hr⟩ := mul_add_inj ds.prod x y _ _ hr₁ hr₂ heq
              subst hxy
              rw [ih xs ys hxs hys hr]

theorem posInBounds_append (dims pos : List Nat) (j : Nat)
    (hlen : dims.length = pos.length + 1) (hpb : posInBounds dims pos = true)
    (hj : j < lastSize dims) : List.Forall₂ (· < ·) (pos ++ [j]) dims := by
  induction pos generalizing dims with
  | nil =>
      rcases dims with _ | ⟨d, ds⟩
      · simp at hlen
      · rcases ds with _ | ⟨e, es⟩
        · simpa using List.Forall₂.cons (show j < d from hj) List.Forall₂.nil
        · simp at hlen
  | cons x xs ih =>
      rcases dims with _ | ⟨d, ds⟩
      · simp at hlen
      · have hx : x < d ∧ posInBounds ds xs = true := by
          simpa [posInBounds, List.all_cons] using hpb
        have hlast : lastSize (d :: ds) = lastSize ds := by
          rcases ds with _ | ⟨e, es⟩
          · simp at hlen
          · rfl
        exact List.Forall₂.cons hx.1 (ih ds (by simpa using hlen) hx.2 (hlast ▸ hj))

theorem firstFreeAux_some (s : GameState) (pos : List Nat) (fuel j0 j : Nat)
    (h : firstFreeAux s pos fuel j0 = some j) :
    j0 ≤ j ∧ j < j0 + fuel ∧ cellAt s (pos ++ [j]) = none ∧
      ∀ i, j0 ≤ i → i < j → cellAt s (pos ++ [i]) ≠ none := by
  induction fuel generalizing j0 with
  | zero => simp [firstFreeAux] at h
  | succ fuel ih =>
      unfold firstFreeAux at h
      split at h
      · next hc =>
          simp only [Option.some.injEq] at h
          subst h
          refine ⟨le_refl _, by omega, hc, ?_⟩
          intro i h1 h2
          exact absurd h2 (by omega)
      · next hc =>
          obtain ⟨h1, h2, h3, h4⟩ := ih (j0 + 1) h
          refine ⟨by omega, by omega, h3, ?_⟩
          intro i hi1 hi2
          rcases Nat.eq_or_lt_of_le hi1 with rfl | hlt
          · exact hc
          · exact h4 i (by omega) hi2

theorem insert_disk_ok_spec (s : GameState) (c : Color) (pos : List Nat)
    (s₁ : GameState) (q : List Nat)
    (hwf : s.cells.length = s.dims.prod)
    (hlen : pos.length = s.dims.length - 1) (hD : 2 ≤ s.dims.length)
    (h : s.insert_disk c pos = some (s₁, Except.ok q)) :
    ∃ j, q = pos ++ [j] ∧ j < lastSize s.dims ∧
      cellAt s (pos ++ [j]) = none ∧
      (∀ i, i < j → cellAt s (pos ++ [i]) ≠ none) ∧
      cellAt s₁ (pos ++ [j]) = some c ∧
      (∀ r, List.Forall₂ (· < ·) r s.dims → r ≠ pos ++ [j] →
        cellAt s₁ r = cellAt s r) ∧
      s₁.dims = s.dims ∧ s₁.round = s.round ∧ s₁.check_vecs = s.check_vecs := by
  obtain ⟨j, hb, hff, hq, hs₁⟩ := insert_disk_ok_shape s c pos s₁ q h
  obtain ⟨_, hjlt, hcnone, hbelow⟩ := firstFreeAux_some s pos (lastSize s.dims) 0 j hff
  have hjb : j < lastSize s.dims := by omega
  have hfor : List.Forall₂ (· < ·) (pos ++ [j]) s.dims :=
    posInBounds_append s.dims pos j (by omega) hb hjb
  have hidx : flatIndex s.dims (pos ++ [j]) < s.cells.length := by
    rw [hwf]
    exact flatIndex_lt _ _ hfor
  subst hs₁
  subst hq
  refine ⟨j, rfl, hjb, hcnone, fun i hi => hbelow i (by omega) hi, ?_, ?_, rfl, rfl, rfl⟩
  · show (s.cells.set (flatIndex s.dims (pos ++ [j])) (some c)).getD
        (flatIndex s.dims (pos ++ [j])) none = some c
    exact getD_set_self _ _ _ hidx
  · intro r hr hne
    show (s.cells.set (flatIndex s.dims (pos ++ [j])) (some c)).getD
        (flatIndex s.dims r) none = s.cells.getD (flatIndex s.dims r) none
    apply getD_set_other
    intro hh
    exact hne (flatIndex_inj s.dims r (pos ++ [j]) hr hfor hh.symm)

/-- C4: a successful insertion lands at the partial position extended by
the smallest drop-axis index whose cell is empty; exactly that cell
changes, from empty to `some c`, and everything else (all other cells,
the shape, the direction set, the round counter) is unchanged. -/
theorem claim_C4 (s : GameState) (c : Color) (pos : List Nat)
    (s₁ : GameState) (q : List Nat)
    (hwf : s.cells.length = s.dims.prod)
    (hlen : pos.length = s.dims.length - 1) (hD : 2 ≤ s.dims.length)
    (h : s.insert_disk c pos = some (s₁, Except.ok q)) :
    ∃ j, q = pos ++ [j] ∧ j < lastSize s.dims ∧
      cellAt s (pos ++ [j]) = none ∧
      (∀ i, i < j → cellAt s (pos ++ [i]) ≠ none) ∧
      cellAt s₁ (pos ++ [j]) = some c ∧
      (∀ r, List.Forall₂ (· < ·) r s.dims → r ≠ pos ++ [j] →
        cellAt s₁ r = cellAt s r) ∧
      s₁.dims = s.dims ∧ s₁.round = s.round ∧ s₁.check_vecs = s.check_vecs :=
  insert_disk_ok_spec s c pos s₁ q hwf hlen hD h

/-- C4 witness: inserting a red disk at fixed coordinate [1] of a fresh
2×2 board lands at (1,0). -/
theorem claim_C4_witness :
    (demoNew [2, 2]).insert_disk Color.Red [1] = some (demoIns, Except.ok [1, 0]) ∧
    ∃ j, ([1, 0] : List Nat) = [1] ++ [j] ∧ j < lastSize (demoNew [2, 2]).dims ∧
      cellAt (demoNew [2, 2]) ([1] ++ [j]) = none ∧
      (∀ i, i < j → cellAt (demoNew [2, 2]) ([1] ++ [i]) ≠ none) ∧
      cellAt demoIns ([1] ++ [j]) = some Color.Red ∧
      (∀ r, List.Forall₂ (· < ·) r (demoNew [2, 2]).dims → r ≠ [1] ++ [j] →
        cellAt demoIns r = cellAt (demoNew [2, 2]) r) ∧
      demoIns.dims = (demoNew [2, 2]).dims ∧
      demoIns.round = (demoNew [2, 2]).round ∧
      demoIns.check_vecs = (demoNew [2, 2]).check_vecs :=
  ⟨rfl, claim_C4 (demoNew [2, 2]) Color.Red [1] demoIns [1, 0]
    (by decide) (by decide) (by decide) rfl⟩

theorem play_disk_preserves_wf (s : GameState) (c : Color) (pos : List Nat)
    (s₁ : GameState) (r : Except GameError (List Nat × Bool))
    (hwf : WF s) (h : s.play_disk c pos = some (s₁, r)) : WF s₁ := by
  rcases play_disk_cases s c pos s₁ r h with ⟨rfl, _, _⟩ | ⟨_, hcase⟩
  · exact hwf
  · rcases hcase with ⟨e, _, rfl, _⟩ | ⟨s₂, q, hins, _, heq, _⟩ | ⟨s₂, q, hins, _, heq, _⟩
    · exact hwf
    · obtain ⟨_, hd, _, hc⟩ := insert_disk_ok_round s c pos s₂ q hins
      rw [heq]
      exact ⟨by rw [hc, hd]; exact hwf.1, by rw [hd]; exact hwf.2⟩
    · obtain ⟨_, hd, _, hc⟩ := insert_disk_ok_round s c pos s₂ q hins
      rw [heq]
      exact ⟨by show s₂.cells.length = s₂.dims.prod; rw [hc, hd]; exact hwf.1,
             by show 2 ≤ s₂.dims.length; rw [hd]; exact hwf.2⟩

theorem stacked_insert (s : GameState) (c : Color) (pos : List Nat)
    (s₂ : GameState) (q : List Nat)
    (hwf : WF s) (hst : Stacked s) (hlen : pos.length = s.dims.length - 1)
    (hins : s.insert_disk c pos = some (s₂, Except.ok q)) : Stacked s₂ := by
  obtain ⟨j, hq, hjb, hempty, hbelow, hset, hother, hd, _, _⟩ :=
    insert_disk_ok_spec s c pos s₂ q hwf.1 hlen hwf.2 hins
  have hD2 : 2 ≤ s.dims.length := hwf.2
  intro pos' j' k' hlen' hpb' hjk hk' hocc
  rw [hd] at hlen' hpb' hk'
  have hfor_j : List.Forall₂ (· < ·) (pos' ++ [j']) s.dims :=
    posInBounds_append s.dims pos' j' (by omega) hpb' (by omega)
  by_cases hjq : pos' ++ [j'] = pos ++ [j]
  · rw [hjq, hset]
    simp
  · rw [hother _ hfor_j hjq]
    by_cases hkq : pos' ++ [k'] = pos ++ [j]
    · have hl : pos'.length = pos.length := by omega
      obtain ⟨rfl, hk⟩ := List.append_inj hkq hl
      have hj' : j' ≠ j := by
        intro hh
        exact hjq (by rw [hh])
      have hkj : k' = j := by simpa using hk
      exact hbelow j' (by omega)
    · have hfor_k : List.Forall₂ (· < ·) (pos' ++ [k']) s.dims :=
        posInBounds_append s.dims pos' k' (by omega) hpb' hk'
      rw [hother _ hfor_k hkq] at hocc
      exact hst pos' j' k' (by omega) hpb' hjk hk' hocc

theorem stacked_round_bump (s : GameState) (n : Nat) (hst : Stacked s) :
    Stacked { s with round := n } := hst

theorem reachable_wf_stacked (s : GameState) (h : Reachable s) :
    WF s ∧ Stacked s := by
  induction h with
  | init dims s hnew =>
      unfold GameState.new at hnew
      split at hnew
      · simp at hnew
      · next hlen =>
          simp only [Except.ok.injEq] at hnew
          subst hnew
          constructor
          · exact ⟨by simp, by show 2 ≤ dims.length; omega⟩
          · intro pos j k _ _ _ _ hocc
            exact absurd (replicate_getD dims.prod _) hocc
  | step s c pos s₁ r hreach hplay ih =>
      refine ⟨play_disk_preserves_wf s c pos s₁ r ih.1 hplay, ?_⟩
      rcases play_disk_cases s c pos s₁ r hplay with ⟨rfl, _, _⟩ | ⟨hlen, hcase⟩
      · exact ih.2
      · rcases hcase with ⟨e, _, rfl, _⟩ | ⟨s₂, q, hins, _, heq, _⟩ | ⟨s₂, q, hins, _, heq, _⟩
        · exact ih.2
        · rw [heq]
          exact stacked_insert s c pos s₂ q ih.1 ih.2 hlen hins
        · rw [heq]
          exact stacked_round_bump s₂ _ (stacked_insert s c pos s₂ q ih.1 ih.2 hlen hins)

/-- C8: in every state reachable from a fresh game by `play_disk` calls,
the occupied cells along the drop axis above any fixed partial position
form a contiguous run starting at index 0: a cell is occupied only if
every cell below it along the drop axis is occupied. -/
theorem claim_C8 (s : GameState) (h : Reachable s) : Stacked s :=
  (reachable_wf_stacked s h).2

/-- C8 witness: the two-disk demo state is reachable and stacked. -/
theorem claim_C8_witness : Reachable demoA2 ∧ Stacked demoA2 := by
  have h0 : Reachable demoA0 := Reachable.init [4, 4] demoA0 rfl
  have h1 : Reachable demoA1 :=
    Reachable.step demoA0 Color.Red [0] demoA1 (Except.ok ([0, 0], false)) h0 rfl
  have h2 : Reachable demoA2 :=
    Reachable.step demoA1 Color.Red [0] demoA2 (Except.ok ([0, 1], false)) h1 rfl
  exact ⟨h2, claim_C8 demoA2 h2⟩

/-- C10 witness: length-1 shape rejected; shape [0,3] accepted with
capacity 0 and every move rejected with `BoardFull`. -/
theorem claim_C10_witness :
    GameState.new [6] = Except.error GameError.TooFewDimensions ∧
    (∃ s, GameState.new [0, 3] = Except.ok s) ∧
    demoZ.max_rounds = 0 ∧
    demoZ.play_disk Color.Red [2] = some (demoZ, Except.error GameError.BoardFull) :=
  ⟨claim_C10.1 [6] (by decide), claim_C10.2.1 [0, 3] (by decide),
   (claim_C10.2.2 [0, 3] demoZ rfl (by decide)).1,
   (claim_C10.2.2 [0, 3] demoZ rfl (by decide)).2 Color.Red [2]⟩
